import Mathlib

/-!
# Verification of the cleanlab label-quality / outlier-scoring core

A shallow embedding of the label-quality engine described by the
repository's specification: the confident-joint estimator, the joint
calibrator, the per-example quality scorer, the issue filter/ranker, the
sequence aggregator and the nearest-neighbor outlier scorer, together with
the CONLL-style `readfile` ingestion helper defined in
`docs/source/tutorials/token_classification.ipynb`.

Probabilities are modelled as rationals (`ℚ`) so that every operation is
executable; the temperature-weighted soft-minimum aggregation, which needs
a real exponential, lives on `ℝ`.
-/

namespace Cleanlab

/-! ## Label Quality Scorer -/

/-- Modelled from the spec: `cleanlab`'s per-example *self-confidence*
quality score (`cleanlab.rank`), absent from `src/`.  The score of an
example is the probability its predicted distribution assigns to the
example's given label. -/
def selfConfidenceScore (label : ℕ) (p : List ℚ) : ℚ :=
  p.getD label 0

/-- Modelled from the spec: the *normalized margin* quality score, absent
from `src/`: the given label's probability minus the largest probability
among the other classes, rescaled from `[-1,1]` to `[0,1]`. -/
def normalizedMarginScore (label : ℕ) (p : List ℚ) : ℚ :=
  let others := (List.range p.length).filterMap
    (fun j => if j = label then none else some (p.getD j 0))
  (p.getD label 0 - others.foldl max 0 + 1) / 2

/-- Modelled from the spec: applying a quality scorer position-wise over a
dataset of (given label, probability vector) pairs. -/
def scoreAll (scorer : ℕ → List ℚ → ℚ) (labels : List ℕ)
    (probs : List (List ℚ)) : List ℚ :=
  (labels.zip probs).map fun lp => scorer lp.1 lp.2

theorem scoreAll_length (scorer : ℕ → List ℚ → ℚ) (labels : List ℕ)
    (probs : List (List ℚ)) :
    (scoreAll scorer labels probs).length = min labels.length probs.length := by
  simp [scoreAll]

/-! ## Issue ranking -/

/-- Modelled from the spec: the ranking order used by the issue ranker —
ascending quality score, ties broken by ascending original index. -/
def rankRel (scores : List ℚ) (i j : ℕ) : Prop :=
  scores.getD i 0 < scores.getD j 0 ∨
    (scores.getD i 0 = scores.getD j 0 ∧ i ≤ j)

instance rankRelDecidable (scores : List ℚ) : DecidableRel (rankRel scores) :=
  fun i j => inferInstanceAs (Decidable (_ ∨ _))

instance rankRelTotal (scores : List ℚ) : IsTotal ℕ (rankRel scores) := by
  constructor
  intro i j
  rcases lt_trichotomy (scores.getD i 0) (scores.getD j 0) with h | h | h
  · exact Or.inl (Or.inl h)
  · rcases Nat.le_total i j with hij | hij
    · exact Or.inl (Or.inr ⟨h, hij⟩)
    · exact Or.inr (Or.inr ⟨h.symm, hij⟩)
  · exact Or.inr (Or.inl h)

instance rankRelTrans (scores : List ℚ) : IsTrans ℕ (rankRel scores) := by
  constructor
  intro i j k hij hjk
  rcases hij with h1 | ⟨h1, h1'⟩
  · rcases hjk with h2 | ⟨h2, _⟩
    · exact Or.inl (h1.trans h2)
    · exact Or.inl (h2 ▸ h1)
  · rcases hjk with h2 | ⟨h2, h2'⟩
    · exact Or.inl (h1 ▸ h2)
    · exact Or.inr ⟨h1.trans h2, h1'.trans h2'⟩

/-- Modelled from the spec: sort a list of example indices by ascending
quality score, ties broken by ascending index. -/
def rankIndices (scores : List ℚ) (idxs : List ℕ) : List ℕ :=
  idxs.insertionSort (rankRel scores)

/-- Modelled from the spec: the ranked output of `issues_from_scores` /
`find_label_issues` when indices are requested — all example indices
ordered by ascending quality score. -/
def rankByScore (scores : List ℚ) : List ℕ :=
  rankIndices scores (List.range scores.length)

/-! ## Claim C1 -/

/-- C1: for every example `i` with given label `labels[i]` and probability
vector `pred_probs[i]`, the self-confidence label quality score equals
exactly `pred_probs[i][labels[i]]`. -/
theorem C1_self_confidence_identity (labels : List ℕ) (probs : List (List ℚ))
    (i : ℕ) (h1 : i < labels.length) (h2 : i < probs.length) :
    (scoreAll selfConfidenceScore labels probs).getD i 0 =
      (probs.getD i []).getD (labels.getD i 0) 0 := by
  have hz : i < (labels.zip probs).length := by
    simp [List.length_zip]
    omega
  simp only [scoreAll]
  rw [List.getD_eq_getElem _ _ (by simpa [scoreAll] using hz),
    List.getElem_map]
  have hzi : (labels.zip probs)[i] = (labels[i], probs[i]) :=
    List.getElem_zip
  rw [hzi]
  simp only [selfConfidenceScore]
  rw [List.getD_eq_getElem probs [] h2, List.getD_eq_getElem labels 0 h1]

theorem C1_self_confidence_identity_witness :
    (0 : ℕ) < [1, 0].length ∧ (0 : ℕ) < [[(1:ℚ)/4, 3/4], [2/3, 1/3]].length ∧
      (scoreAll selfConfidenceScore [1, 0] [[(1:ℚ)/4, 3/4], [2/3, 1/3]]).getD 0 0 =
        ([[(1:ℚ)/4, 3/4], [2/3, 1/3]].getD 0 []).getD ([1, 0].getD 0 0) 0 :=
  ⟨by decide, by decide,
    C1_self_confidence_identity [1, 0] [[(1:ℚ)/4, 3/4], [2/3, 1/3]] 0
      (by decide) (by decide)⟩

/-! ## Confident Joint Estimator -/

/-- Modelled from the spec: the number of examples whose given label is `j`. -/
def classCount (labels : List ℕ) (j : ℕ) : ℕ :=
  labels.countP fun l => l == j

/-- Modelled from the spec: the list of predicted probabilities of class `j`
over exactly the examples whose given label is `j`. -/
def selfProbs (labels : List ℕ) (probs : List (List ℚ)) (j : ℕ) : List ℚ :=
  (labels.zip probs).filterMap fun lp =>
    if lp.1 = j then some (lp.2.getD j 0) else none

/-- Modelled from the spec: per-class confidence threshold `t_j` — the mean
predicted probability of class `j` among examples whose given label is `j`
(`cleanlab`'s confident-joint thresholds, absent from `src/`). -/
def classThreshold (labels : List ℕ) (probs : List (List ℚ)) (j : ℕ) : ℚ :=
  (selfProbs labels probs j).sum / (selfProbs labels probs j).length

/-- One step of the scan for the confident class of an example: class `j`
is a candidate when its probability clears its threshold; a candidate
replaces the current best only when its probability is strictly higher, so
ties are broken towards the lowest class index. -/
def ccStep (t : ℕ → ℚ) (p : List ℚ) (acc : Option ℕ) (j : ℕ) : Option ℕ :=
  if t j ≤ p.getD j 0 then
    match acc with
    | none => some j
    | some b => if p.getD b 0 < p.getD j 0 then some j else some b
  else acc

/-- Modelled from the spec: the class an example is confidently assigned
to — the highest-probability class among those clearing their thresholds,
ties broken by lowest class index, `none` when no class clears. -/
def confidentClass (K : ℕ) (t : ℕ → ℚ) (p : List ℚ) : Option ℕ :=
  (List.range K).foldl (ccStep t p) none

/-- One row's contribution to the confident joint: entry
`(given label, confident class)` is incremented when a confident class
exists. -/
def cjStep (K : ℕ) (t : ℕ → ℚ) (M : ℕ → ℕ → ℕ) (lp : ℕ × List ℚ) :
    ℕ → ℕ → ℕ :=
  match confidentClass K t lp.2 with
  | some c => fun x y => if x = lp.1 ∧ y = c then M x y + 1 else M x y
  | none => M

/-- Modelled from the spec: accumulate the `K×K` confident-joint count
matrix over the dataset rows. -/
def buildConfidentJoint (K : ℕ) (t : ℕ → ℚ) (rows : List (ℕ × List ℚ)) :
    ℕ → ℕ → ℕ :=
  rows.foldl (cjStep K t) fun _ _ => 0

/-- Modelled from the spec: the first class in `0..K-1` with no example
carrying it as given label, if any. -/
def missingClass (K : ℕ) (labels : List ℕ) : Option ℕ :=
  (List.range K).find? fun j => !(labels.contains j)

/-- Modelled from the spec: `estimate_confident_joint` — fails when some
class has zero examples with that given label (its threshold would be
undefined), otherwise builds the confident joint from the per-class mean
self-confidence thresholds. -/
def estimateConfidentJoint (K : ℕ) (labels : List ℕ)
    (probs : List (List ℚ)) : Except String (ℕ → ℕ → ℕ) :=
  match missingClass K labels with
  | some j => .error ("degenerate statistics: no examples have given label "
      ++ toString j)
  | none => .ok (buildConfidentJoint K (classThreshold labels probs)
      (labels.zip probs))

theorem confidentClass_zero (t : ℕ → ℚ) (p : List ℚ) :
    confidentClass 0 t p = none := rfl

theorem confidentClass_succ (K : ℕ) (t : ℕ → ℚ) (p : List ℚ) :
    confidentClass (K + 1) t p = ccStep t p (confidentClass K t p) K := by
  simp [confidentClass, List.range_succ]

theorem confidentClass_some_clears (K : ℕ) (t : ℕ → ℚ) (p : List ℚ) :
    ∀ b, confidentClass K t p = some b → b < K ∧ t b ≤ p.getD b 0 := by
  induction K with
  | zero => intro b h; simp [confidentClass_zero] at h
  | succ K ih =>
    intro b h
    rw [confidentClass_succ] at h
    rcases hK : confidentClass K t p with _ | c <;> rw [hK] at h <;>
      simp only [ccStep] at h
    · split at h
      · obtain rfl : K = b := by simpa using h
        exact ⟨Nat.lt_succ_self _, by assumption⟩
      · simp at h
    · split at h
      · split at h
        · obtain rfl : K = b := by simpa using h
          exact ⟨Nat.lt_succ_self _, by assumption⟩
        · obtain rfl : c = b := by simpa using h
          exact ⟨(ih c hK).1.trans (Nat.lt_succ_self _), (ih c hK).2⟩
      · obtain rfl : c = b := by simpa using h
        exact ⟨(ih c hK).1.trans (Nat.lt_succ_self _), (ih c hK).2⟩

theorem confidentClass_none_iff (K : ℕ) (t : ℕ → ℚ) (p : List ℚ) :
    confidentClass K t p = none ↔ ∀ j < K, p.getD j 0 < t j := by
  induction K with
  | zero => simp [confidentClass_zero]
  | succ K ih =>
    rw [confidentClass_succ]
    rcases hK : confidentClass K t p with _ | c
    · simp only [ccStep]
      split
      · constructor
        · intro h; simp at h
        · intro h
          exact absurd (h K (Nat.lt_succ_self _)) (not_lt.mpr (by assumption))
      · simp only [true_iff]
        intro j hj
        rcases Nat.lt_succ_iff_lt_or_eq.mp hj with hj' | rfl
        · exact (ih.mp hK) j hj'
        · exact lt_of_not_le (by assumption)
    · have hb := confidentClass_some_clears K t p c hK
      simp only [ccStep]
      have : ∀ r : Option ℕ, r = some c ∨ r = some K →
          (r = none ↔ ∀ j < K + 1, p.getD j 0 < t j) := by
        rintro r (rfl | rfl) <;>
          · simp only [reduceCtorEq, false_iff]
            intro h
            exact absurd (h c (hb.1.trans (Nat.lt_succ_self _))) (not_lt.mpr hb.2)
      split
      · split
        · exact this _ (Or.inr rfl)
        · exact this _ (Or.inl rfl)
      · exact this _ (Or.inl rfl)

theorem confidentClass_some_iff (K : ℕ) (t : ℕ → ℚ) (p : List ℚ) :
    ∀ c, confidentClass K t p = some c ↔
      c < K ∧ t c ≤ p.getD c 0 ∧
      (∀ j < K, t j ≤ p.getD j 0 → p.getD j 0 ≤ p.getD c 0) ∧
      (∀ j < c, t j ≤ p.getD j 0 → p.getD j 0 < p.getD c 0) := by
  induction K with
  | zero => intro c; simp [confidentClass_zero]
  | succ K ih =>
    intro c
    rw [confidentClass_succ]
    rcases hK : confidentClass K t p with _ | b
    · have hnone := (confidentClass_none_iff K t p).mp hK
      simp only [ccStep]
      split
      · rename_i hth
        constructor
        · intro h
          obtain rfl : K = c := by simpa using h
          refine ⟨Nat.lt_succ_self _, hth, ?_, ?_⟩
          · intro j hj htj
            rcases Nat.lt_succ_iff_lt_or_eq.mp hj with hj' | rfl
            · exact absurd htj (not_le.mpr (hnone j hj'))
            · exact le_refl _
          · intro j hj htj
            exact absurd htj (not_le.mpr (hnone j hj))
        · rintro ⟨hc, htc, hmax, hlow⟩
          have hck : c = K := by
            rcases Nat.lt_succ_iff_lt_or_eq.mp hc with hc' | rfl
            · exact absurd htc (not_le.mpr (hnone c hc'))
            · rfl
          simp [hck]
      · rename_i hth
        constructor
        · intro h; simp at h
        · rintro ⟨hc, htc, hmax, hlow⟩
          rcases Nat.lt_succ_iff_lt_or_eq.mp hc with hc' | rfl
          · exact absurd htc (not_le.mpr (hnone c hc'))
          · exact absurd htc hth
    · obtain ⟨hbK, htb, hbmax, hblow⟩ := (ih b).mp hK
      simp only [ccStep]
      split
      · rename_i hth
        split
        · rename_i hlt
          constructor
          · intro h
            obtain rfl : K = c := by simpa using h
            refine ⟨Nat.lt_succ_self _, hth, ?_, ?_⟩
            · intro j hj htj
              rcases Nat.lt_succ_iff_lt_or_eq.mp hj with hj' | rfl
              · exact (hbmax j hj' htj).trans hlt.le
              · exact le_refl _
            · intro j hj htj
              exact lt_of_le_of_lt (hbmax j hj htj) hlt
          · rintro ⟨hc, htc, hmax, hlow⟩
            have hck : c = K := by
              rcases Nat.lt_succ_iff_lt_or_eq.mp hc with hc' | rfl
              · have h1 := hmax K (Nat.lt_succ_self _) hth
                have h2 := hbmax c hc' htc
                exact absurd (h1.trans_lt (h2.trans_lt hlt)) (lt_irrefl _)
              · rfl
            simp [hck]
        · rename_i hnlt
          have hKb : p.getD K 0 ≤ p.getD b 0 := not_lt.mp hnlt
          constructor
          · intro h
            obtain rfl : b = c := by simpa using h
            refine ⟨hbK.trans (Nat.lt_succ_self _), htb, ?_, hblow⟩
            intro j hj htj
            rcases Nat.lt_succ_iff_lt_or_eq.mp hj with hj' | rfl
            · exact hbmax j hj' htj
            · exact hKb
          · rintro ⟨hc, htc, hmax, hlow⟩
            have hcK : c < K := by
              rcases Nat.lt_succ_iff_lt_or_eq.mp hc with hc' | rfl
              · exact hc'
              · exact absurd (hlow b hbK htb) (not_lt.mpr hKb)
            have hcc : confidentClass K t p = some c := (ih c).mpr
              ⟨hcK, htc, fun j hj htj =>
                hmax j (hj.trans (Nat.lt_succ_self _)) htj, hlow⟩
            rw [hK] at hcc
            exact hcc
      · rename_i hth
        constructor
        · intro h
          obtain rfl : b = c := by simpa using h
          refine ⟨hbK.trans (Nat.lt_succ_self _), htb, ?_, hblow⟩
          intro j hj htj
          rcases Nat.lt_succ_iff_lt_or_eq.mp hj with hj' | rfl
          · exact hbmax j hj' htj
          · exact absurd htj hth
        · rintro ⟨hc, htc, hmax, hlow⟩
          have hcK : c < K := by
            rcases Nat.lt_succ_iff_lt_or_eq.mp hc with hc' | rfl
            · exact hc'
            · exact absurd htc hth
          have hcc : confidentClass K t p = some c := (ih c).mpr
            ⟨hcK, htc, fun j hj htj =>
              hmax j (hj.trans (Nat.lt_succ_self _)) htj, hlow⟩
          rw [hK] at hcc
          exact hcc

theorem foldl_cjStep_count (K : ℕ) (t : ℕ → ℚ) :
    ∀ (rows : List (ℕ × List ℚ)) (M : ℕ → ℕ → ℕ) (a b : ℕ),
      (rows.foldl (cjStep K t) M) a b =
        M a b + rows.countP fun lp =>
          decide (lp.1 = a ∧ confidentClass K t lp.2 = some b) := by
  intro rows
  induction rows with
  | nil => intro M a b; simp
  | cons lp rows ih =>
    intro M a b
    rw [List.foldl_cons, ih, List.countP_cons]
    have hstep : (cjStep K t M lp) a b =
        M a b + (if lp.1 = a ∧ confidentClass K t lp.2 = some b
          then 1 else 0) := by
      rcases hcc : confidentClass K t lp.2 with _ | c <;>
        simp only [cjStep, hcc]
      · simp
      · have hiff : (a = lp.1 ∧ b = c) ↔ (lp.1 = a ∧ some c = some b) := by
          constructor <;> rintro ⟨h1, h2⟩
          · exact ⟨h1.symm, by rw [h2]⟩
          · exact ⟨h1.symm, by simpa using h2.symm⟩
        split_ifs with h1 h2 h2
        · omega
        · exact absurd (hiff.mp h1) h2
        · exact absurd (hiff.mpr h2) h1
        · omega
    rw [hstep]
    have : (decide (lp.1 = a ∧ confidentClass K t lp.2 = some b) = true) ↔
        (lp.1 = a ∧ confidentClass K t lp.2 = some b) := by simp
    by_cases hpred : lp.1 = a ∧ confidentClass K t lp.2 = some b <;>
      simp [hpred] <;> omega

theorem buildConfidentJoint_count (K : ℕ) (t : ℕ → ℚ)
    (rows : List (ℕ × List ℚ)) (a b : ℕ) :
    buildConfidentJoint K t rows a b =
      rows.countP fun lp =>
        decide (lp.1 = a ∧ confidentClass K t lp.2 = some b) := by
  rw [buildConfidentJoint, foldl_cjStep_count]
  omega

theorem selfProbs_length : ∀ (labels : List ℕ) (probs : List (List ℚ)) (j : ℕ),
    labels.length = probs.length →
    (selfProbs labels probs j).length = classCount labels j := by
  intro labels
  induction labels with
  | nil => intro probs j _; simp [selfProbs, classCount]
  | cons l ls ih =>
    intro probs j h
    cases probs with
    | nil => simp at h
    | cons p ps =>
      have hrec := ih ps j (by simpa using h)
      by_cases hlj : l = j <;>
        simp [selfProbs, classCount, List.countP_cons, hlj, selfProbs,
          classCount] at hrec ⊢ <;> omega

theorem classThreshold_mul (labels : List ℕ) (probs : List (List ℚ)) (j : ℕ)
    (h : labels.length = probs.length) :
    classThreshold labels probs j * classCount labels j =
      (selfProbs labels probs j).sum := by
  rw [classThreshold, ← selfProbs_length labels probs j h]
  rcases Nat.eq_zero_or_pos (selfProbs labels probs j).length with h0 | hpos
  · have hnil : selfProbs labels probs j = [] := List.length_eq_zero.mp h0
    simp [hnil]
  · have hne : ((selfProbs labels probs j).length : ℚ) ≠ 0 :=
      Nat.cast_ne_zero.mpr (Nat.pos_iff_ne_zero.mp hpos)
    exact div_mul_cancel₀ _ hne

/-! ## Claim C2 -/

/-- C2: with every class represented, `estimate_confident_joint` succeeds
and returns the matrix whose entry `(a, b)` counts exactly the examples
with given label `a` whose confident class is `b`; the per-class threshold
`t_j` is the mean predicted probability of class `j` over exactly the
examples with given label `j`; an example's confident class, when it
exists, is the highest-probability class among those clearing their
thresholds (ties to the lowest class index), and it is absent exactly when
no class clears its threshold, in which case the example increments no
entry. -/
theorem C2_confident_joint_estimator (K : ℕ) (labels : List ℕ)
    (probs : List (List ℚ)) (hmiss : missingClass K labels = none)
    (hlen : labels.length = probs.length) :
    ∃ M, estimateConfidentJoint K labels probs = .ok M ∧
      (∀ j, (selfProbs labels probs j).length = classCount labels j ∧
        classThreshold labels probs j * classCount labels j =
          (selfProbs labels probs j).sum) ∧
      (∀ a b, M a b = (labels.zip probs).countP fun lp =>
        decide (lp.1 = a ∧
          confidentClass K (classThreshold labels probs) lp.2 = some b)) ∧
      (∀ p, confidentClass K (classThreshold labels probs) p = none ↔
        ∀ j < K, p.getD j 0 < classThreshold labels probs j) ∧
      (∀ p c, confidentClass K (classThreshold labels probs) p = some c ↔
        c < K ∧ classThreshold labels probs c ≤ p.getD c 0 ∧
        (∀ j < K, classThreshold labels probs j ≤ p.getD j 0 →
          p.getD j 0 ≤ p.getD c 0) ∧
        (∀ j < c, classThreshold labels probs j ≤ p.getD j 0 →
          p.getD j 0 < p.getD c 0)) := by
  refine ⟨buildConfidentJoint K (classThreshold labels probs)
    (labels.zip probs), ?_, ?_, ?_, ?_, ?_⟩
  · simp [estimateConfidentJoint, hmiss]
  · exact fun j => ⟨selfProbs_length labels probs j hlen,
      classThreshold_mul labels probs j hlen⟩
  · exact fun a b => buildConfidentJoint_count K _ _ a b
  · exact fun p => confidentClass_none_iff K _ p
  · exact fun p c => confidentClass_some_iff K _ p c

theorem C2_confident_joint_witness :
    missingClass 1 [0] = none ∧ [0].length = [[(1 : ℚ)]].length ∧
      ∃ M, estimateConfidentJoint 1 [0] [[(1 : ℚ)]] = .ok M ∧
        (∀ j, (selfProbs [0] [[(1 : ℚ)]] j).length = classCount [0] j ∧
          classThreshold [0] [[(1 : ℚ)]] j * classCount [0] j =
            (selfProbs [0] [[(1 : ℚ)]] j).sum) ∧
        (∀ a b, M a b = ([0].zip [[(1 : ℚ)]]).countP fun lp =>
          decide (lp.1 = a ∧
            confidentClass 1 (classThreshold [0] [[(1 : ℚ)]]) lp.2 = some b)) ∧
        (∀ p, confidentClass 1 (classThreshold [0] [[(1 : ℚ)]]) p = none ↔
          ∀ j < 1, p.getD j 0 < classThreshold [0] [[(1 : ℚ)]] j) ∧
        (∀ p c, confidentClass 1 (classThreshold [0] [[(1 : ℚ)]]) p = some c ↔
          c < 1 ∧ classThreshold [0] [[(1 : ℚ)]] c ≤ p.getD c 0 ∧
          (∀ j < 1, classThreshold [0] [[(1 : ℚ)]] j ≤ p.getD j 0 →
            p.getD j 0 ≤ p.getD c 0) ∧
          (∀ j < c, classThreshold [0] [[(1 : ℚ)]] j ≤ p.getD j 0 →
            p.getD j 0 < p.getD c 0)) :=
  ⟨by decide, rfl, C2_confident_joint_estimator 1 [0] [[(1 : ℚ)]]
    (by decide) rfl⟩

/-! ## Joint Distribution Calibrator -/

/-- Row sum of a `K×K` count matrix. -/
def rowSum (K : ℕ) (cj : ℕ → ℕ → ℕ) (a : ℕ) : ℕ :=
  ((List.range K).map (cj a)).sum

/-- Modelled from the spec: `calibrate_joint` — rescale each row of the
confident joint so that row `a` sums to the number of examples whose given
label is `a` (the empirical label marginal on the count scale); the grand
total then equals the dataset size `N`, and dividing the matrix by `N`
yields the joint probability matrix. -/
def calibrateJoint (K : ℕ) (cj : ℕ → ℕ → ℕ) (labels : List ℕ) :
    ℕ → ℕ → ℚ := fun a b =>
  (cj a b : ℚ) * (classCount labels a : ℚ) / (rowSum K cj a : ℚ)

/-- Row sum of a `K×K` rational matrix. -/
def calRowSum (K : ℕ) (cal : ℕ → ℕ → ℚ) (a : ℕ) : ℚ :=
  ((List.range K).map (cal a)).sum

/-- Grand total of a `K×K` rational matrix. -/
def calGrandTotal (K : ℕ) (cal : ℕ → ℕ → ℚ) : ℚ :=
  ((List.range K).map (calRowSum K cal)).sum

theorem sum_map_add {α : Type} (f g : α → ℚ) :
    ∀ l : List α, (l.map fun a => f a + g a).sum = (l.map f).sum + (l.map g).sum := by
  intro l
  induction l with
  | nil => simp
  | cons x xs ih => simp [ih]; ring

theorem sum_map_add_nat {α : Type} (f g : α → ℕ) :
    ∀ l : List α, (l.map fun a => f a + g a).sum = (l.map f).sum + (l.map g).sum := by
  intro l
  induction l with
  | nil => simp
  | cons x xs ih => simp [ih]; ring

theorem sum_indicator_range (x : ℕ) :
    ∀ n : ℕ, ((List.range n).map fun a => if x = a then 1 else 0).sum =
      (if x < n then 1 else 0 : ℕ) := by
  intro n
  induction n with
  | zero => simp
  | succ n ih =>
    rw [List.range_succ, List.map_append, List.sum_append, ih]
    by_cases hx : x = n
    · subst hx
      simp [Nat.lt_succ_self, lt_irrefl]
    · by_cases hlt : x < n <;>
        simp [hx, hlt, Nat.lt_succ_iff_lt_or_eq] <;> omega

theorem sum_classCount (K : ℕ) :
    ∀ labels : List ℕ, (∀ l ∈ labels, l < K) →
      ((List.range K).map (classCount labels)).sum = labels.length := by
  intro labels
  induction labels with
  | nil =>
    intro _
    have hz : classCount ([] : List ℕ) = fun _ => 0 := by
      funext a; simp [classCount]
    rw [hz]
    simp
  | cons x ls ih =>
    intro h
    have hx : x < K := h x (List.mem_cons_self x ls)
    have hls : ∀ l ∈ ls, l < K := fun l hl => h l (List.mem_cons_of_mem _ hl)
    have hcc : ∀ a, classCount (x :: ls) a =
        classCount ls a + (if x = a then 1 else 0) := by
      intro a
      simp only [classCount, List.countP_cons]
      by_cases hxa : x = a <;> simp [hxa]
    calc ((List.range K).map (classCount (x :: ls))).sum
        = ((List.range K).map fun a =>
            classCount ls a + (if x = a then 1 else 0)).sum := by
          congr 1
          exact List.map_congr_left fun a _ => hcc a
      _ = ((List.range K).map (classCount ls)).sum +
            ((List.range K).map fun a => if x = a then 1 else 0).sum :=
          sum_map_add_nat _ _ _
      _ = ls.length + 1 := by rw [ih hls, sum_indicator_range x K, if_pos hx]
      _ = (x :: ls).length := by simp

theorem calRowSum_calibrate (K : ℕ) (cj : ℕ → ℕ → ℕ) (labels : List ℕ)
    (a : ℕ) (hrs : 0 < rowSum K cj a) :
    calRowSum K (calibrateJoint K cj labels) a = classCount labels a := by
  have hR : ((rowSum K cj a : ℕ) : ℚ) ≠ 0 :=
    Nat.cast_ne_zero.mpr (Nat.pos_iff_ne_zero.mp hrs)
  have hrw : (List.range K).map (calibrateJoint K cj labels a) =
      (List.range K).map fun b => ((cj a b : ℕ) : ℚ) *
        ((classCount labels a : ℚ) / (rowSum K cj a : ℚ)) := by
    refine List.map_congr_left fun b _ => ?_
    rw [calibrateJoint, mul_div_assoc]
  rw [calRowSum, hrw, List.sum_map_mul_right]
  have hcast : ((List.range K).map fun b => ((cj a b : ℕ) : ℚ)).sum =
      ((rowSum K cj a : ℕ) : ℚ) := by
    rw [rowSum, Nat.cast_list_sum, List.map_map]
    rfl
  rw [hcast, mul_comm, div_mul_cancel₀ _ hR]

/-! ## Claim C3 -/

/-- C3 (amended): for every valid input — labels all in range, at least one
example, and no empty confident-joint row — the calibrated joint has row
`a` summing to the empirical count of given label `a` and grand total `N`;
its entries divided by `N` lie in `[0,1]` and the rescaled matrix sums to 1
overall. -/
theorem C3_calibration_amended (K : ℕ) (cj : ℕ → ℕ → ℕ) (labels : List ℕ)
    (hl : ∀ l ∈ labels, l < K) (hpos : 0 < labels.length)
    (hrs : ∀ a < K, 0 < rowSum K cj a) :
    (∀ a < K, calRowSum K (calibrateJoint K cj labels) a = classCount labels a) ∧
    calGrandTotal K (calibrateJoint K cj labels) = labels.length ∧
    (∀ a < K, ∀ b < K,
      0 ≤ calibrateJoint K cj labels a b / labels.length ∧
        calibrateJoint K cj labels a b / labels.length ≤ 1) ∧
    calGrandTotal K (fun a b => calibrateJoint K cj labels a b / labels.length) = 1 := by
  have hN : ((labels.length : ℕ) : ℚ) ≠ 0 :=
    Nat.cast_ne_zero.mpr (Nat.pos_iff_ne_zero.mp hpos)
  have hrow : ∀ a < K,
      calRowSum K (calibrateJoint K cj labels) a = classCount labels a :=
    fun a ha => calRowSum_calibrate K cj labels a (hrs a ha)
  have hgrand : calGrandTotal K (calibrateJoint K cj labels) = labels.length := by
    rw [calGrandTotal]
    have hrw : (List.range K).map (calRowSum K (calibrateJoint K cj labels)) =
        (List.range K).map fun a => ((classCount labels a : ℕ) : ℚ) := by
      refine List.map_congr_left fun a ha => ?_
      exact hrow a (List.mem_range.mp ha)
    rw [hrw]
    have : (List.range K).map (fun a => ((classCount labels a : ℕ) : ℚ)) =
        ((List.range K).map (classCount labels)).map (fun n : ℕ => (n : ℚ)) := by
      rw [List.map_map]; rfl
    rw [this, ← Nat.cast_list_sum, sum_classCount K labels hl]
  have hnonneg : ∀ a b, 0 ≤ calibrateJoint K cj labels a b := by
    intro a b
    rw [calibrateJoint]
    positivity
  have hentry : ∀ a < K, ∀ b < K,
      calibrateJoint K cj labels a b ≤ labels.length := by
    intro a ha b hb
    have hmem : calibrateJoint K cj labels a b ∈
        (List.range K).map (calibrateJoint K cj labels a) :=
      List.mem_map.mpr ⟨b, List.mem_range.mpr hb, rfl⟩
    have h1 : calibrateJoint K cj labels a b ≤
        calRowSum K (calibrateJoint K cj labels) a :=
      List.single_le_sum (fun q hq => by
        obtain ⟨b', _, rfl⟩ := List.mem_map.mp hq
        exact hnonneg a b') _ hmem
    have h2 : (classCount labels a : ℚ) ≤ labels.length := by
      exact_mod_cast List.countP_le_length _
    exact h1.trans ((hrow a ha).le.trans h2)
  refine ⟨hrow, hgrand, ?_, ?_⟩
  · intro a ha b hb
    constructor
    · apply div_nonneg (hnonneg a b)
      exact_mod_cast Nat.zero_le _
    · rw [div_le_one (by exact_mod_cast hpos)]
      exact hentry a ha b hb
  · have hrw : ∀ a, calRowSum K
        (fun a b => calibrateJoint K cj labels a b / labels.length) a =
        calRowSum K (calibrateJoint K cj labels) a / labels.length := by
      intro a
      simp only [calRowSum, div_eq_mul_inv]
      rw [← List.sum_map_mul_right]
    rw [calGrandTotal]
    have : (List.range K).map (calRowSum K
        (fun a b => calibrateJoint K cj labels a b / labels.length)) =
        (List.range K).map (fun a =>
          calRowSum K (calibrateJoint K cj labels) a / labels.length) :=
      List.map_congr_left fun a _ => hrw a
    rw [this]
    have : (List.range K).map (fun a =>
        calRowSum K (calibrateJoint K cj labels) a / labels.length) =
        (List.range K).map (fun a =>
          calRowSum K (calibrateJoint K cj labels) a * ((labels.length : ℚ))⁻¹) :=
      List.map_congr_left fun a _ => by rw [div_eq_mul_inv]
    rw [this, List.sum_map_mul_right]
    have hsum : ((List.range K).map
        (calRowSum K (calibrateJoint K cj labels))).sum = labels.length := hgrand
    rw [hsum, mul_inv_cancel₀ hN]

/-- C3 (counterexample): the claim as stated requires the calibrated joint
to have grand total `N` *and* entries summing to 1 overall; on the valid
input `confident_joint = [[1,0],[0,1]]`, `labels = [0,1]` (`N = 2`) the
grand total is `2`, which is not `1`, so the two requirements cannot both
hold. -/
theorem C3_calibration_witness :
    (∀ l ∈ [0, 1], l < 2) ∧ (0 : ℕ) < [0, 1].length ∧
      (∀ a < 2, 0 < rowSum 2 (fun a b => if a = b then 1 else 0) a) ∧
      calGrandTotal 2 (calibrateJoint 2
        (fun a b => if a = b then 1 else 0) [0, 1]) = [0, 1].length :=
  ⟨by decide, by decide, by decide,
    (C3_calibration_amended 2 (fun a b => if a = b then 1 else 0) [0, 1]
      (by decide) (by decide) (by decide)).2.1⟩

theorem C3_calibration_counterexample :
    calGrandTotal 2 (calibrateJoint 2
      (fun a b => if a = b then 1 else 0) [0, 1]) = 2 ∧
    calGrandTotal 2 (calibrateJoint 2
      (fun a b => if a = b then 1 else 0) [0, 1]) ≠ 1 := by
  have h : calGrandTotal 2 (calibrateJoint 2
      (fun a b => if a = b then 1 else 0) [0, 1]) = 2 := by
    norm_num [calGrandTotal, calRowSum, calibrateJoint, rowSum, classCount,
      List.range_succ, List.countP_cons]
  refine ⟨h, ?_⟩
  rw [h]
  intro hcontra
  exact absurd hcontra (by norm_num)

/-! ## Claim C5 -/

/-- C5: the ranked index output is ordered by ascending quality score with
ties broken by ascending original example index, it is a permutation of all
example indices, and identical inputs produce identical output. -/
theorem C5_ranking_sorted_deterministic (scores : List ℚ) :
    (rankByScore scores).Perm (List.range scores.length) ∧
    (rankByScore scores).Pairwise (fun i j =>
      scores.getD i 0 < scores.getD j 0 ∨
        (scores.getD i 0 = scores.getD j 0 ∧ i < j)) ∧
    ∀ scores' : List ℚ, scores' = scores → rankByScore scores' = rankByScore scores := by
  refine ⟨List.perm_insertionSort _ _, ?_, fun s' h => by rw [h]⟩
  have hsorted : (rankByScore scores).Pairwise (rankRel scores) :=
    List.sorted_insertionSort _ _
  have hnodup : (rankByScore scores).Nodup :=
    ((List.perm_insertionSort (rankRel scores) (List.range scores.length)).nodup_iff).mpr
      (List.nodup_range _)
  have hcomb := hsorted.and hnodup
  refine hcomb.imp ?_
  rintro i j ⟨hr, hne⟩
  rcases hr with h | ⟨heq, hle⟩
  · exact Or.inl h
  · exact Or.inr ⟨heq, lt_of_le_of_ne hle hne⟩

theorem C5_ranking_witness :
    rankByScore [mkRat 1 2, mkRat 1 4] = rankByScore [mkRat 1 2, mkRat 1 4] ∧
      rankByScore [mkRat 1 2, mkRat 1 4] = [1, 0] :=
  ⟨(C5_ranking_sorted_deterministic [mkRat 1 2, mkRat 1 4]).2.2 _ rfl, by decide⟩

/-! ## Exclude filter (Claim C6) -/

/-- Modelled from the spec: whether a (predicted, given) class pair matches
an entry of the `exclude` list in either ordering — exclude entries are
treated as unordered pairs. -/
def excludedPair (exclude : List (ℕ × ℕ)) (pr : ℕ × ℕ) : Bool :=
  exclude.contains pr || exclude.contains (pr.2, pr.1)

/-- Modelled from the spec: the issue filter's `exclude` handling — flagged
example indices whose (predicted, given) class pair matches an excluded
pair in either ordering are removed. -/
def filterExcluded (exclude : List (ℕ × ℕ)) (given pred : ℕ → ℕ)
    (issues : List ℕ) : List ℕ :=
  issues.filter fun i => !(excludedPair exclude (pred i, given i))

/-- Modelled from the spec: the sequence issue filter's `exclude` handling
over (sequence index, position) issue pairs. -/
def filterExcludedSeq (exclude : List (ℕ × ℕ)) (given pred : ℕ × ℕ → ℕ)
    (issues : List (ℕ × ℕ)) : List (ℕ × ℕ) :=
  issues.filter fun sp => !(excludedPair exclude (pred sp, given sp))

/-- C6: no example (or sequence position) surviving the exclude filter has
a (true, given) class pair matching an excluded pair in either ordering. -/
theorem C6_exclude_both_orderings (exclude : List (ℕ × ℕ))
    (given pred : ℕ → ℕ) (givenS predS : ℕ × ℕ → ℕ)
    (issues : List ℕ) (issuesS : List (ℕ × ℕ)) :
    (∀ i ∈ filterExcluded exclude given pred issues,
      (pred i, given i) ∉ exclude ∧ (given i, pred i) ∉ exclude) ∧
    (∀ sp ∈ filterExcludedSeq exclude givenS predS issuesS,
      (predS sp, givenS sp) ∉ exclude ∧ (givenS sp, predS sp) ∉ exclude) := by
  constructor
  · intro i hi
    have h := (List.mem_filter.mp hi).2
    simp only [excludedPair, Bool.not_eq_eq_eq_not, Bool.not_true,
      Bool.or_eq_false_iff] at h
    exact ⟨by simpa using h.1, by simpa using h.2⟩
  · intro sp hsp
    have h := (List.mem_filter.mp hsp).2
    simp only [excludedPair, Bool.not_eq_eq_eq_not, Bool.not_true,
      Bool.or_eq_false_iff] at h
    exact ⟨by simpa using h.1, by simpa using h.2⟩

theorem C6_exclude_witness :
    (5 : ℕ) ∈ filterExcluded [(0, 1)] (fun _ => 2) (fun _ => 3) [5] ∧
      ((3 : ℕ), (2 : ℕ)) ∉ [((0 : ℕ), (1 : ℕ))] :=
  ⟨by decide,
    ((C6_exclude_both_orderings [(0, 1)] (fun _ => 2) (fun _ => 3)
      (fun _ => 0) (fun _ => 0) [5] []).1 5 (by decide)).1⟩

/-! ## Issue Filter/Ranker (count-based policy) -/

/-- One step of the scan for the predicted class of an example (lowest-index
argmax of its probability vector). -/
def amStep (p : List ℚ) (acc : ℕ) (j : ℕ) : ℕ :=
  if p.getD acc 0 < p.getD j 0 then j else acc

/-- Modelled from the spec: the model's predicted class for an example —
the argmax of its probability vector, ties broken by lowest class index. -/
def argmaxClass (K : ℕ) (p : List ℚ) : ℕ :=
  (List.range K).foldl (amStep p) 0

/-- Modelled from the spec: the ordered off-diagonal class pairs
`(given, predicted)` of a `K`-class problem. -/
def offDiagPairs (K : ℕ) : List (ℕ × ℕ) :=
  (List.product (List.range K) (List.range K)).filter fun ab =>
    decide (ab.1 ≠ ab.2)

/-- Modelled from the spec: the candidate examples for the class pair
`(a, b)` — examples with given label `a` that the confident-joint step
assigned to class `b`. -/
def candidateIdxs (K : ℕ) (t : ℕ → ℚ) (labels : List ℕ)
    (probs : List (List ℚ)) (a b : ℕ) : List ℕ :=
  (List.range labels.length).filter fun i =>
    decide (labels.getD i 0 = a) &&
      decide (confidentClass K t (probs.getD i []) = some b)

/-- Modelled from the spec: how many examples the count-based policy flags
for a class pair — the calibrated joint's estimate of the number of
mislabeled examples for that pair, on the count scale. -/
def numToFlag (cal : ℕ → ℕ → ℚ) (a b : ℕ) : ℕ :=
  (round (cal a b)).toNat

/-- Modelled from the spec: the count-based policy — per off-diagonal class
pair, flag the prescribed number of candidates with the lowest quality
scores. -/
def flaggedIssues (K : ℕ) (labels : List ℕ) (probs : List (List ℚ))
    (scorer : ℕ → List ℚ → ℚ) : List ℕ :=
  (offDiagPairs K).foldr (fun ab acc =>
    (rankIndices (scoreAll scorer labels probs)
        (candidateIdxs K (classThreshold labels probs) labels probs ab.1 ab.2)).take
      (numToFlag (calibrateJoint K
        (buildConfidentJoint K (classThreshold labels probs) (labels.zip probs))
        labels) ab.1 ab.2) ++ acc) []

/-- Modelled from the spec: `find_label_issues` with the count-based
filtering policy — estimate the confident joint, calibrate it, flag the
prescribed number of lowest-scoring candidates per off-diagonal pair,
remove excluded class pairs (both orderings honored) and return the
surviving indices ranked by ascending quality score. -/
def findLabelIssues (K : ℕ) (labels : List ℕ) (probs : List (List ℚ))
    (scorer : ℕ → List ℚ → ℚ) (exclude : List (ℕ × ℕ)) :
    Except String (List ℕ) :=
  match missingClass K labels with
  | some j => .error ("degenerate statistics: no examples have given label "
      ++ toString j)
  | none => .ok (rankIndices (scoreAll scorer labels probs)
      (filterExcluded exclude (fun i => labels.getD i 0)
        (fun i => argmaxClass K (probs.getD i []))
        (flaggedIssues K labels probs scorer)))

theorem foldr_append_eq_nil {α β : Type} (f : α → List β) :
    ∀ ps : List α, (∀ ab ∈ ps, f ab = []) →
      ps.foldr (fun ab acc => f ab ++ acc) [] = [] := by
  intro ps
  induction ps with
  | nil => intro _; rfl
  | cons ab ps ih =>
    intro h
    rw [List.foldr_cons, h ab (List.mem_cons_self ab ps),
      ih fun x hx => h x (List.mem_cons_of_mem _ hx)]
    rfl

/-! ## Claim C4 -/

/-- C4 (amended): on a dataset where every example's given label is the
strict argmax of its predicted probabilities *and* clears its class
threshold, `find_label_issues` (count-based policy) returns an empty set
of issues under every scoring method and every exclude list. -/
theorem C4_zero_noise_amended (K : ℕ) (labels : List ℕ)
    (probs : List (List ℚ)) (scorer : ℕ → List ℚ → ℚ)
    (exclude : List (ℕ × ℕ)) (hmiss : missingClass K labels = none)
    (hlab : ∀ l ∈ labels, l < K)
    (hargmax : ∀ i < labels.length, ∀ j < K, j ≠ labels.getD i 0 →
      (probs.getD i []).getD j 0 < (probs.getD i []).getD (labels.getD i 0) 0)
    (hclear : ∀ i < labels.length,
      classThreshold labels probs (labels.getD i 0) ≤
        (probs.getD i []).getD (labels.getD i 0) 0) :
    findLabelIssues K labels probs scorer exclude = .ok [] := by
  have hlabK : ∀ i, i < labels.length → labels.getD i 0 < K := by
    intro i hi
    rw [List.getD_eq_getElem labels 0 hi]
    exact hlab _ (List.getElem_mem hi)
  have hcc : ∀ i, i < labels.length →
      confidentClass K (classThreshold labels probs) (probs.getD i []) =
        some (labels.getD i 0) := by
    intro i hi
    apply (confidentClass_some_iff K (classThreshold labels probs)
      (probs.getD i []) (labels.getD i 0)).mpr
    refine ⟨hlabK i hi, hclear i hi, ?_, ?_⟩
    · intro j hj htj
      by_cases hje : j = labels.getD i 0
      · subst hje; exact le_refl _
      · exact (hargmax i hi j hj hje).le
    · intro j hj htj
      exact hargmax i hi j (hj.trans (hlabK i hi)) (Nat.ne_of_lt hj)
  have hcjoff : ∀ a b, a ≠ b →
      buildConfidentJoint K (classThreshold labels probs)
        (labels.zip probs) a b = 0 := by
    intro a b hne
    rw [buildConfidentJoint_count]
    apply List.countP_eq_zero.mpr
    intro lp hmem
    obtain ⟨i, hlen, hget⟩ := List.mem_iff_getElem.mp hmem
    have hi1 : i < labels.length := by
      rw [List.length_zip] at hlen; omega
    have hi2 : i < probs.length := by
      rw [List.length_zip] at hlen; omega
    have hlp : lp = (labels[i], probs[i]) := by
      rw [← hget]; exact List.getElem_zip
    subst hlp
    simp only [decide_eq_true_eq, not_and]
    intro h1 h2
    have hcci := hcc i hi1
    rw [List.getD_eq_getElem probs [] hi2,
      List.getD_eq_getElem labels 0 hi1] at hcci
    rw [hcci] at h2
    have : labels[i] = b := by simpa using h2
    exact hne (h1 ▸ this)
  have hflag : flaggedIssues K labels probs scorer = [] := by
    rw [flaggedIssues]
    apply foldr_append_eq_nil
    intro ab hab
    have hne : ab.1 ≠ ab.2 := by
      have := (List.mem_filter.mp hab).2
      simpa using this
    have hcal : calibrateJoint K
        (buildConfidentJoint K (classThreshold labels probs)
          (labels.zip probs)) labels ab.1 ab.2 = 0 := by
      rw [calibrateJoint, hcjoff ab.1 ab.2 hne]
      simp
    rw [numToFlag, hcal]
    simp
  rw [findLabelIssues]
  rw [hmiss]
  rw [hflag]
  rfl

theorem C4_zero_noise_witness :
    missingClass 2 [0, 1] = none ∧
    (∀ i < [0, 1].length,
      classThreshold [0, 1] [[(9:ℚ)/10, 1/10], [1/5, 4/5]] ([0, 1].getD i 0) ≤
        (([[(9:ℚ)/10, 1/10], [1/5, 4/5]]).getD i []).getD ([0, 1].getD i 0) 0) ∧
    findLabelIssues 2 [0, 1] [[(9:ℚ)/10, 1/10], [1/5, 4/5]]
      selfConfidenceScore [] = .ok [] := by
  have hmiss : missingClass 2 [0, 1] = none := by decide
  have hclear : ∀ i < [0, 1].length,
      classThreshold [0, 1] [[(9:ℚ)/10, 1/10], [1/5, 4/5]] ([0, 1].getD i 0) ≤
        (([[(9:ℚ)/10, 1/10], [1/5, 4/5]]).getD i []).getD ([0, 1].getD i 0) 0 := by
    intro i hi
    have hi2 : i < 2 := by simpa using hi
    clear hi
    interval_cases i <;>
      norm_num [classThreshold, selfProbs, List.filterMap_cons]
  refine ⟨hmiss, hclear, ?_⟩
  apply C4_zero_noise_amended 2 [0, 1] [[(9:ℚ)/10, 1/10], [1/5, 4/5]]
    selfConfidenceScore [] hmiss (by decide) ?_ hclear
  intro i hi j hj hne
  have hi2 : i < 2 := by simpa using hi
  clear hi
  interval_cases i <;> interval_cases j <;> simp_all <;> norm_num

/-- The labels of the concrete zero-label-noise dataset refuting C4 as
stated. -/
def cexLabels : List ℕ := [0, 0, 1, 2]

/-- The predicted probabilities of the concrete zero-label-noise dataset
refuting C4 as stated: every given label is the strict argmax of its row
and every row sums to 1, yet example 1's own class misses its class
threshold (`t_0 = 7/10`) while class 1's threshold (`t_1 = 2/5`) is met,
so the confident joint gets an off-diagonal entry and the count-based
filter flags example 1. -/
def cexProbs : List (List ℚ) :=
  [[9/10, 1/20, 1/20], [1/2, 9/20, 1/20], [3/10, 2/5, 3/10],
    [1/20, 1/20, 9/10]]

/-- C4 (counterexample): a dataset in which every example's given label is
the (strict) argmax of its predicted probability vector, yet
`find_label_issues` (count-based policy, self-confidence scoring) returns
a non-empty set of issues. -/
theorem C4_zero_noise_counterexample :
    (∀ i < cexLabels.length, ∀ j < 3, j ≠ cexLabels.getD i 0 →
      (cexProbs.getD i []).getD j 0 <
        (cexProbs.getD i []).getD (cexLabels.getD i 0) 0) ∧
    findLabelIssues 3 cexLabels cexProbs selfConfidenceScore [] ≠ .ok [] := by
  constructor
  · intro i hi j hj hne
    have hi4 : i < 4 := hi
    clear hi
    interval_cases i <;> interval_cases j <;>
      simp_all [cexLabels, cexProbs] <;> norm_num
  have hr : List.range 3 = [0, 1, 2] := rfl
  have hr4 : List.range 4 = [0, 1, 2, 3] := rfl
  have ht0 : classThreshold cexLabels cexProbs 0 = 7/10 := by
    norm_num [classThreshold, selfProbs, cexLabels, cexProbs,
      List.filterMap_cons]
  have ht1 : classThreshold cexLabels cexProbs 1 = 2/5 := by
    norm_num [classThreshold, selfProbs, cexLabels, cexProbs,
      List.filterMap_cons]
  have ht2 : classThreshold cexLabels cexProbs 2 = 9/10 := by
    norm_num [classThreshold, selfProbs, cexLabels, cexProbs,
      List.filterMap_cons]
  have hcc0 : confidentClass 3 (classThreshold cexLabels cexProbs)
      [(9:ℚ)/10, 1/20, 1/20] = some 0 := by
    rw [confidentClass, hr]
    norm_num [ccStep, ht0, ht1, ht2]
  have hcc1 : confidentClass 3 (classThreshold cexLabels cexProbs)
      [(1:ℚ)/2, 9/20, 1/20] = some 1 := by
    rw [confidentClass, hr]
    norm_num [ccStep, ht0, ht1, ht2]
  have hcc2 : confidentClass 3 (classThreshold cexLabels cexProbs)
      [(3:ℚ)/10, 2/5, 3/10] = some 1 := by
    rw [confidentClass, hr]
    norm_num [ccStep, ht0, ht1, ht2]
  have hcc3 : confidentClass 3 (classThreshold cexLabels cexProbs)
      [(1:ℚ)/20, 1/20, 9/10] = some 2 := by
    rw [confidentClass, hr]
    norm_num [ccStep, ht0, ht1, ht2]
  have hcj : ∀ a b, buildConfidentJoint 3 (classThreshold cexLabels cexProbs)
      (cexLabels.zip cexProbs) a b =
      [(0, 0), (0, 1), (1, 1), (2, 2)].countP fun xy =>
        decide (xy.1 = a ∧ xy.2 = b) := by
    intro a b
    rw [buildConfidentJoint_count]
    show ([(0, [(9:ℚ)/10, 1/20, 1/20]), (0, [(1:ℚ)/2, 9/20, 1/20]),
      (1, [(3:ℚ)/10, 2/5, 3/10]), (2, [(1:ℚ)/20, 1/20, 9/10])].countP _) = _
    simp only [List.countP_cons, List.countP_nil, hcc0, hcc1, hcc2, hcc3]
    simp [Option.some.injEq]
  have hcj01 : buildConfidentJoint 3 (classThreshold cexLabels cexProbs)
      (cexLabels.zip cexProbs) 0 1 = 1 := by rw [hcj]; decide
  have hcj00 : buildConfidentJoint 3 (classThreshold cexLabels cexProbs)
      (cexLabels.zip cexProbs) 0 0 = 1 := by rw [hcj]; decide
  have hcj02 : buildConfidentJoint 3 (classThreshold cexLabels cexProbs)
      (cexLabels.zip cexProbs) 0 2 = 0 := by rw [hcj]; decide
  have hcj10 : buildConfidentJoint 3 (classThreshold cexLabels cexProbs)
      (cexLabels.zip cexProbs) 1 0 = 0 := by rw [hcj]; decide
  have hcj12 : buildConfidentJoint 3 (classThreshold cexLabels cexProbs)
      (cexLabels.zip cexProbs) 1 2 = 0 := by rw [hcj]; decide
  have hcj20 : buildConfidentJoint 3 (classThreshold cexLabels cexProbs)
      (cexLabels.zip cexProbs) 2 0 = 0 := by rw [hcj]; decide
  have hcj21 : buildConfidentJoint 3 (classThreshold cexLabels cexProbs)
      (cexLabels.zip cexProbs) 2 1 = 0 := by rw [hcj]; decide
  have hnum : numToFlag (calibrateJoint 3
      (buildConfidentJoint 3 (classThreshold cexLabels cexProbs)
        (cexLabels.zip cexProbs)) cexLabels) 0 1 = 1 := by
    have hrow : rowSum 3 (buildConfidentJoint 3
        (classThreshold cexLabels cexProbs) (cexLabels.zip cexProbs)) 0 = 2 := by
      rw [rowSum, hr]
      simp only [List.map_cons, List.map_nil, List.sum_cons, List.sum_nil,
        hcj00, hcj01, hcj02]
      decide
    have hcnt : classCount cexLabels 0 = 2 := by decide
    rw [numToFlag, calibrateJoint, hcj01, hrow, hcnt]
    norm_num
  have hnumz : ∀ a b, buildConfidentJoint 3 (classThreshold cexLabels cexProbs)
        (cexLabels.zip cexProbs) a b = 0 →
      numToFlag (calibrateJoint 3
        (buildConfidentJoint 3 (classThreshold cexLabels cexProbs)
          (cexLabels.zip cexProbs)) cexLabels) a b = 0 := by
    intro a b h0
    rw [numToFlag, calibrateJoint, h0]
    norm_num
  have hL0 : cexLabels.getD 0 0 = 0 := rfl
  have hL1 : cexLabels.getD 1 0 = 0 := rfl
  have hL2 : cexLabels.getD 2 0 = 1 := rfl
  have hL3 : cexLabels.getD 3 0 = 2 := rfl
  have hP0 : cexProbs.getD 0 [] = [(9:ℚ)/10, 1/20, 1/20] := rfl
  have hP1 : cexProbs.getD 1 [] = [(1:ℚ)/2, 9/20, 1/20] := rfl
  have hP2 : cexProbs.getD 2 [] = [(3:ℚ)/10, 2/5, 3/10] := rfl
  have hP3 : cexProbs.getD 3 [] = [(1:ℚ)/20, 1/20, 9/10] := rfl
  have hcand : candidateIdxs 3 (classThreshold cexLabels cexProbs)
      cexLabels cexProbs 0 1 = [1] := by
    rw [candidateIdxs]
    show (List.range 4).filter _ = [1]
    rw [hr4]
    simp only [List.filter_cons, List.filter_nil,
      hL0, hL1, hL2, hL3, hP0, hP1, hP2, hP3, hcc0, hcc1, hcc2, hcc3]
    simp
  have hflag : flaggedIssues 3 cexLabels cexProbs selfConfidenceScore = [1] := by
    rw [flaggedIssues]
    have hod : offDiagPairs 3 =
        [(0, 1), (0, 2), (1, 0), (1, 2), (2, 0), (2, 1)] := by decide
    rw [hod]
    simp only [List.foldr_cons, List.foldr_nil]
    rw [hnum, hcand, hnumz 0 2 hcj02, hnumz 1 0 hcj10,
      hnumz 1 2 hcj12, hnumz 2 0 hcj20, hnumz 2 1 hcj21]
    rw [show rankIndices (scoreAll selfConfidenceScore cexLabels cexProbs) [1]
      = [1] from rfl]
    simp
  have hm : missingClass 3 cexLabels = none := by decide
  rw [findLabelIssues, hm, hflag]
  rw [show filterExcluded [] (fun i => cexLabels.getD i 0)
      (fun i => argmaxClass 3 (cexProbs.getD i [])) [1] = [1] from rfl]
  rw [show rankIndices (scoreAll selfConfidenceScore cexLabels cexProbs) [1]
    = [1] from rfl]
  simp

/-! ## Neighbor-Distance Outlier Scorer -/

/-- Modelled from the spec: the reusable fitted nearest-neighbor index — a
reference feature matrix plus the neighbor count, immutable after fit. -/
structure NeighborIndex where
  feats : List (List ℚ)
  k : ℕ

/-- Modelled from the spec: `fit_outlier_index` — fails when there are
fewer reference points than the requested neighbor count `k`. -/
def fitOutlierIndex (feats : List (List ℚ)) (k : ℕ) :
    Except String NeighborIndex :=
  if feats.length < k then
    .error "degenerate statistics: fewer reference points than requested neighbors"
  else .ok ⟨feats, k⟩

/-- Modelled from the spec: the distances from a query vector to its `k`
nearest neighbors in the index, under a caller-supplied metric. -/
def knnDistances (dist : List ℚ → List ℚ → ℚ) (idx : NeighborIndex)
    (q : List ℚ) : List ℚ :=
  ((idx.feats.map (dist q)).insertionSort fun a b => a ≤ b).take idx.k

/-- Modelled from the spec: the average distance from a query vector to its
`k` nearest neighbors. -/
def avgKnnDistance (dist : List ℚ → List ℚ → ℚ) (idx : NeighborIndex)
    (q : List ℚ) : ℚ :=
  (knnDistances dist idx q).sum / idx.k

/-- Modelled from the spec: the monotone-decreasing transform mapping an
average neighbor distance in `[0, ∞)` to a bounded outlier score in
`(0, 1]` (distance 0 ↦ 1, distance → ∞ ↦ 0). -/
def distToScore (d : ℚ) : ℚ := 1 / (1 + d)

/-- Modelled from the spec: `outlier_scores` for a single query vector —
the transform applied to its average k-nearest-neighbor distance. -/
def outlierScore (dist : List ℚ → List ℚ → ℚ) (idx : NeighborIndex)
    (q : List ℚ) : ℚ :=
  distToScore (avgKnnDistance dist idx q)

theorem sorted_take_all_zero :
    ∀ (l : List ℚ), l.Sorted (· ≤ ·) → (∀ x ∈ l, 0 ≤ x) →
      ∀ k : ℕ, k ≤ l.countP (fun x => decide (x = 0)) →
      ∀ x ∈ l.take k, x = 0 := by
  intro l
  induction l with
  | nil => intro _ _ k _ x hx; simp at hx
  | cons a t ih =>
    intro hsort hnn k hk x hx
    rcases k with _ | k'
    · simp at hx
    have ha : a = 0 := by
      by_contra hane
      have hapos : 0 < a :=
        lt_of_le_of_ne (hnn a (List.mem_cons_self a t)) (Ne.symm hane)
      have htz : t.countP (fun x => decide (x = 0)) = 0 := by
        apply List.countP_eq_zero.mpr
        intro y hy
        have hay : a ≤ y := (List.sorted_cons.mp hsort).1 y hy
        simp only [decide_eq_true_eq]
        exact ne_of_gt (hapos.trans_le hay)
      rw [List.countP_cons] at hk
      simp [htz, hane] at hk
    subst ha
    rw [List.take_succ_cons] at hx
    rcases List.mem_cons.mp hx with rfl | hx'
    · rfl
    · have hk' : k' ≤ t.countP (fun x => decide (x = 0)) := by
        rw [List.countP_cons] at hk
        simp at hk
        omega
      exact ih (List.sorted_cons.mp hsort).2
        (fun y hy => hnn y (List.mem_cons_of_mem _ hy)) k' hk' x hx'

/-! ## Claim C7 -/

/-- C7: for every fitted index (with `k > 0` and a nonnegative, reflexive
metric), the outlier score of every query lies in `(0, 1]`; it is strictly
monotone-decreasing in the average k-NN distance; a query identical to `k`
reference points scores exactly 1 (the maximum); and scores fall below any
`ε > 0` once the average k-NN distance is large enough. -/
theorem C7_outlier_score_transform (feats : List (List ℚ)) (k : ℕ)
    (dist : List ℚ → List ℚ → ℚ) (idx : NeighborIndex)
    (hfit : fitOutlierIndex feats k = .ok idx) (hk : 0 < k)
    (hnn : ∀ x y, 0 ≤ dist x y) (hrefl : ∀ x, dist x x = 0) :
    (∀ q, 0 < outlierScore dist idx q ∧ outlierScore dist idx q ≤ 1) ∧
    (∀ q1 q2, avgKnnDistance dist idx q1 < avgKnnDistance dist idx q2 →
      outlierScore dist idx q2 < outlierScore dist idx q1) ∧
    (∀ q, k ≤ feats.countP (fun r => decide (r = q)) →
      outlierScore dist idx q = 1) ∧
    (∀ ε : ℚ, 0 < ε → ∃ D, ∀ q, D ≤ avgKnnDistance dist idx q →
      outlierScore dist idx q < ε) := by
  have hidx : idx = ⟨feats, k⟩ := by
    rw [fitOutlierIndex] at hfit
    split at hfit
    · exact absurd hfit (by simp)
    · simpa using hfit.symm
  subst hidx
  have hmemnn : ∀ q x, x ∈ knnDistances dist ⟨feats, k⟩ q → 0 ≤ x := by
    intro q x hx
    have hx1 : x ∈ (feats.map (dist q)).insertionSort fun a b => a ≤ b :=
      List.mem_of_mem_take hx
    have hx2 : x ∈ feats.map (dist q) :=
      (List.perm_insertionSort _ _).mem_iff.mp hx1
    obtain ⟨r, _, rfl⟩ := List.mem_map.mp hx2
    exact hnn q r
  have havg : ∀ q, 0 ≤ avgKnnDistance dist ⟨feats, k⟩ q := by
    intro q
    apply div_nonneg (List.sum_nonneg (hmemnn q))
    exact_mod_cast Nat.zero_le _
  have hscore : ∀ d : ℚ, 0 ≤ d → 0 < distToScore d ∧ distToScore d ≤ 1 := by
    intro d hd
    have h1d : (0 : ℚ) < 1 + d := by linarith
    rw [distToScore]
    constructor
    · exact div_pos one_pos h1d
    · rw [div_le_one h1d]; linarith
  refine ⟨fun q => hscore _ (havg q), ?_, ?_, ?_⟩
  · intro q1 q2 hlt
    rw [outlierScore, outlierScore, distToScore, distToScore]
    have h1 : (0 : ℚ) < 1 + avgKnnDistance dist ⟨feats, k⟩ q1 := by
      have := havg q1; linarith
    exact one_div_lt_one_div_of_lt h1 (by linarith)
  · intro q hq
    have hzeros : k ≤ ((feats.map (dist q)).insertionSort
        fun a b => a ≤ b).countP (fun x => decide (x = 0)) := by
      rw [(List.perm_insertionSort (fun a b : ℚ => a ≤ b)
        (feats.map (dist q))).countP_eq]
      rw [List.countP_map]
      refine hq.trans (List.countP_mono_left ?_)
      intro r _ hr
      simp only [decide_eq_true_eq] at hr
      simp only [Function.comp_apply, decide_eq_true_eq, hr, hrefl]
    have hall0 : ∀ x ∈ knnDistances dist ⟨feats, k⟩ q, x = 0 := by
      intro x hx
      exact sorted_take_all_zero _ (List.sorted_insertionSort _ _)
        (fun y hy => by
          have hy2 : y ∈ feats.map (dist q) :=
            (List.perm_insertionSort _ _).mem_iff.mp hy
          obtain ⟨r, _, rfl⟩ := List.mem_map.mp hy2
          exact hnn q r) k hzeros x hx
    have hsum : (knnDistances dist ⟨feats, k⟩ q).sum = 0 :=
      List.sum_eq_zero hall0
    rw [outlierScore, avgKnnDistance, hsum]
    norm_num [distToScore]
  · intro ε hε
    refine ⟨1 / ε, fun q hD => ?_⟩
    have hεinv : (0 : ℚ) < 1 / ε := by positivity
    have hdpos : 0 < avgKnnDistance dist ⟨feats, k⟩ q := hεinv.trans_le hD
    rw [outlierScore, distToScore]
    have hlt : 1 / (1 + avgKnnDistance dist ⟨feats, k⟩ q) < 1 / (1 / ε) :=
      one_div_lt_one_div_of_lt hεinv (by linarith)
    rwa [one_div_one_div] at hlt

theorem C7_outlier_score_witness :
    fitOutlierIndex [[(0 : ℚ)], [1]] 1 =
      .ok ⟨[[(0 : ℚ)], [1]], 1⟩ ∧
    (0 : ℕ) < 1 ∧
    1 ≤ [[(0 : ℚ)], [1]].countP (fun r => decide (r = [(0 : ℚ)])) ∧
    outlierScore (fun x y => if x = y then 0 else 1)
      ⟨[[(0 : ℚ)], [1]], 1⟩ [(0 : ℚ)] = 1 := by
  have hfit : fitOutlierIndex [[(0 : ℚ)], [1]] 1 =
      .ok ⟨[[(0 : ℚ)], [1]], 1⟩ := by
    rw [fitOutlierIndex]
    norm_num
  have hcnt : 1 ≤ [[(0 : ℚ)], [1]].countP
      (fun r => decide (r = [(0 : ℚ)])) := by
    simp [List.countP_cons]
  refine ⟨hfit, Nat.one_pos, hcnt, ?_⟩
  exact (C7_outlier_score_transform [[(0 : ℚ)], [1]] 1
    (fun x y => if x = y then 0 else 1) ⟨[[(0 : ℚ)], [1]], 1⟩ hfit
    Nat.one_pos
    (fun x y => by dsimp only; split <;> norm_num)
    (fun x => by simp)).2.2.1 [(0 : ℚ)] hcnt

/-! ## Claim C9 -/

/-- C9: `estimate_confident_joint` fails with a reported error whenever
some class in `0..K-1` has no example carrying it as given label, and
`fit_outlier_index` fails with a reported error whenever there are fewer
reference points than the requested neighbor count; neither returns a
result in those cases. -/
theorem C9_degenerate_statistics_errors (K : ℕ) (labels : List ℕ)
    (probs : List (List ℚ)) (feats : List (List ℚ)) (k : ℕ)
    (h1 : ∃ j, j < K ∧ ∀ l ∈ labels, l ≠ j) (h2 : feats.length < k) :
    (∃ msg, estimateConfidentJoint K labels probs = .error msg) ∧
    (∃ msg, fitOutlierIndex feats k = .error msg) := by
  constructor
  · obtain ⟨j, hjK, hj⟩ := h1
    have hnot : j ∉ labels := fun hm => hj j hm rfl
    have hfind : (missingClass K labels).isSome := by
      rw [missingClass, List.find?_isSome]
      refine ⟨j, List.mem_range.mpr hjK, ?_⟩
      simp only [Bool.not_eq_eq_eq_not, Bool.not_false]
      simpa using hnot
    obtain ⟨j', hj'⟩ := Option.isSome_iff_exists.mp hfind
    exact ⟨_, by rw [estimateConfidentJoint, hj']⟩
  · exact ⟨_, by rw [fitOutlierIndex, if_pos h2]⟩

theorem C9_degenerate_statistics_witness :
    ((1 : ℕ) < 2 ∧ ∀ l ∈ [0], l ≠ 1) ∧
    (([] : List (List ℚ)).length < 1) ∧
    (∃ msg, estimateConfidentJoint 2 [0] [[(1 : ℚ), 0]] = .error msg) ∧
    (∃ msg, fitOutlierIndex ([] : List (List ℚ)) 1 = .error msg) :=
  ⟨⟨by decide, by decide⟩, by decide,
    C9_degenerate_statistics_errors 2 [0] [[(1 : ℚ), 0]] [] 1
      ⟨1, by decide, by decide⟩ (by decide)⟩

/-! ## CONLL-style file ingestion (`readfile` from
`docs/source/tutorials/token_classification.ipynb`)

Strings are embedded as `List Char`; the entity map (a Python dict whose
lookup can raise `KeyError`) is embedded as a partial function into
`Option ℕ`, and a raised `KeyError` makes the whole run return `none`. -/

/-- The parser state of `readfile`: completed sentences (`data`), the
current sentence's words and the current sentence's labels. -/
structure RFState where
  data : List (List (List Char) × List ℕ)
  sentence : List (List Char)
  label : List ℕ

/-- `readfile`'s flush: when the current sentence is non-empty, append
`(sentence, label)` to `data` and reset both accumulators. -/
def flushSentence (st : RFState) : RFState :=
  if st.sentence.length > 0 then ⟨st.data ++ [(st.sentence, st.label)], [], []⟩
  else st

/-- Python's `str.split(sep)` with an explicit one-character separator:
split at every occurrence, keeping empty pieces. -/
def splitOnSep (sep : Char) (l : List Char) : List (List Char) :=
  l.foldr (fun c acc =>
    if c = sep then [] :: acc
    else match acc with
      | [] => [[c]]
      | h :: t => (c :: h) :: t) [[]]

/-- Python's `str.isupper()`: at least one cased character and no lowercase
cased character. -/
def pyIsUpper (w : List Char) : Bool :=
  w.any (fun c => c.isUpper || c.isLower) && w.all fun c => !c.isLower

/-- `readfile`'s word normalization: an all-uppercase alphabetic-initial
word keeps its first character and lowercases the rest
(`word[0] + word[1:].lower()`). -/
def normalizeWord (w : List Char) : List Char :=
  match w with
  | [] => []
  | c :: rest =>
    if c.isAlpha && pyIsUpper (c :: rest) then c :: rest.map Char.toLower
    else c :: rest

/-- One line of `readfile`'s loop: blank/`-DOCSTART` lines flush the
current sentence; any other line contributes one word (first split field,
normalized) and one label (entity map applied to the last split field
minus its trailing newline, `splits[-1][:-1]`), failing when the entity
map has no entry. -/
def readfileLine (entityMap : List Char → Option ℕ) (sep : Char)
    (st : RFState) (line : List Char) : Option RFState :=
  if line.length = 0 ||
      List.isPrefixOf ['-', 'D', 'O', 'C', 'S', 'T', 'A', 'R', 'T'] line ||
      line.headD ' ' = '\n' then
    some (flushSentence st)
  else
    match entityMap ((splitOnSep sep line).getLastD []).dropLast with
    | none => none
    | some lab => some ⟨st.data,
        st.sentence ++ [normalizeWord ((splitOnSep sep line).headD [])],
        st.label ++ [lab]⟩

/-- `readfile` from the token-classification tutorial: fold the line
processor over the file's lines, flush the trailing sentence, and return
the words and labels of the completed sentences as two parallel lists. -/
def readfile (entityMap : List Char → Option ℕ) (sep : Char)
    (lines : List (List Char)) :
    Option (List (List (List Char)) × List (List ℕ)) :=
  match lines.foldlM (readfileLine entityMap sep) ⟨[], [], []⟩ with
  | none => none
  | some st =>
    some ((flushSentence st).data.map Prod.fst,
      (flushSentence st).data.map Prod.snd)

/-- The loop invariant of `readfile`: word and label accumulators руn in
lockstep, and every completed sentence is non-empty with matching word and
label counts. -/
def RFInv (st : RFState) : Prop :=
  st.sentence.length = st.label.length ∧
  ∀ sl ∈ st.data, sl.1.length = sl.2.length ∧ sl.1 ≠ []

theorem flushSentence_inv (st : RFState) (h : RFInv st) :
    RFInv (flushSentence st) := by
  obtain ⟨h1, h2⟩ := h
  rw [flushSentence]
  split
  · rename_i hpos
    refine ⟨rfl, ?_⟩
    intro sl hsl
    rcases List.mem_append.mp hsl with hsl' | hsl'
    · exact h2 sl hsl'
    · have : sl = (st.sentence, st.label) := by simpa using hsl'
      subst this
      exact ⟨h1, fun hnil => by
        have hsn : st.sentence = [] := hnil
        rw [hsn] at hpos
        simp at hpos⟩
  · exact ⟨h1, h2⟩

theorem readfileLine_inv (entityMap : List Char → Option ℕ) (sep : Char)
    (st st' : RFState) (line : List Char) (h : RFInv st)
    (hstep : readfileLine entityMap sep st line = some st') :
    RFInv st' := by
  rw [readfileLine] at hstep
  split at hstep
  · obtain rfl : flushSentence st = st' := by simpa using hstep
    exact flushSentence_inv st h
  · split at hstep
    · simp at hstep
    · obtain rfl : (⟨st.data,
          st.sentence ++ [normalizeWord ((splitOnSep sep line).headD [])],
          st.label ++ [_]⟩ : RFState) = st' := by simpa using hstep
      exact ⟨by simp [h.1], h.2⟩

theorem foldlM_readfileLine_inv (entityMap : List Char → Option ℕ)
    (sep : Char) :
    ∀ (lines : List (List Char)) (st st' : RFState), RFInv st →
      lines.foldlM (readfileLine entityMap sep) st = some st' →
      RFInv st' := by
  intro lines
  induction lines with
  | nil =>
    intro st st' h hfold
    obtain rfl : st = st' := by simpa using hfold
    exact h
  | cons line rest ih =>
    intro st st' h hfold
    rw [List.foldlM_cons] at hfold
    rcases hstep : readfileLine entityMap sep st line with _ | st1
    · rw [hstep] at hfold; simp at hfold
    · rw [hstep] at hfold
      simp only [Option.bind_eq_bind, Option.some_bind] at hfold
      exact ih st1 st' (readfileLine_inv entityMap sep st st1 line h hstep)
        hfold

/-! ## Claim C10 -/

/-- C10: whenever `readfile` returns normally, its two returned lists have
equal length, each sentence's word list and label list have equal length,
and every returned sentence is non-empty. -/
theorem C10_readfile_invariants (entityMap : List Char → Option ℕ)
    (sep : Char) (lines : List (List Char)) (gw : List (List (List Char)))
    (gl : List (List ℕ)) (h : readfile entityMap sep lines = some (gw, gl)) :
    gw.length = gl.length ∧
    ∀ s, s < gw.length → (gw.getD s []).length = (gl.getD s []).length ∧
      gw.getD s [] ≠ [] := by
  rw [readfile] at h
  rcases hfold : lines.foldlM (readfileLine entityMap sep) ⟨[], [], []⟩ with
    _ | st
  · rw [hfold] at h; simp at h
  · rw [hfold] at h
    have hinv0 : RFInv ⟨[], [], []⟩ := ⟨rfl, by simp⟩
    have hinv : RFInv (flushSentence st) :=
      flushSentence_inv st
        (foldlM_readfileLine_inv entityMap sep lines _ st hinv0 hfold)
    obtain ⟨hgw, hgl⟩ : gw = (flushSentence st).data.map Prod.fst ∧
        gl = (flushSentence st).data.map Prod.snd := by
      have := h
      simp only [Option.some_inj, Prod.mk.injEq] at this
      exact ⟨this.1.symm, this.2.symm⟩
    subst hgw
    subst hgl
    constructor
    · simp
    · intro s hs
      have hslen : s < (flushSentence st).data.length := by
        simpa using hs
      have hmem : (flushSentence st).data[s] ∈ (flushSentence st).data :=
        List.getElem_mem hslen
      have hsl := hinv.2 _ hmem
      have hw : ((flushSentence st).data.map Prod.fst).getD s [] =
          (flushSentence st).data[s].1 := by
        rw [List.getD_eq_getElem _ _ (by simpa using hs), List.getElem_map]
      have hl : ((flushSentence st).data.map Prod.snd).getD s [] =
          (flushSentence st).data[s].2 := by
        rw [List.getD_eq_getElem _ _ (by simpa using hs), List.getElem_map]
      rw [hw, hl]
      exact hsl

theorem C10_readfile_witness :
    readfile (fun w => if w = ['A'] then some 0
        else if w = ['B'] then some 1 else none) ' '
      [['H', 'e', 'l', 'l', 'o', ' ', 'A', '\n'], ['\n'],
        ['w', 'o', 'r', 'l', 'd', ' ', 'B', '\n']] =
      some ([[['H', 'e', 'l', 'l', 'o']], [['w', 'o', 'r', 'l', 'd']]],
        [[0], [1]]) ∧
    ([[['H', 'e', 'l', 'l', 'o']], [['w', 'o', 'r', 'l', 'd']]] :
      List (List (List Char))).length = ([[0], [1]] : List (List ℕ)).length :=
  ⟨by decide,
    (C10_readfile_invariants
      (fun w => if w = ['A'] then some 0
        else if w = ['B'] then some 1 else none) ' '
      [['H', 'e', 'l', 'l', 'o', ' ', 'A', '\n'], ['\n'],
        ['w', 'o', 'r', 'l', 'd', ' ', 'B', '\n']]
      [[['H', 'e', 'l', 'l', 'o']], [['w', 'o', 'r', 'l', 'd']]]
      [[0], [1]] (by decide)).1⟩

/-! ## Sequence Aggregator

Token scores are aggregated into one sequence score by a selectable
method; the temperature-weighted soft-minimum needs a real exponential, so
this component lives on `ℝ`. -/

/-- Modelled from the spec: the closed set of sequence aggregation
strategies — minimum, arithmetic mean, temperature-weighted soft-minimum. -/
inductive AggMethod : Type
  | amin : AggMethod
  | amean : AggMethod
  | softmin : ℝ → AggMethod

/-- Modelled from the spec: the sequence aggregator — `amin` returns the
least token score, `amean` the arithmetic mean, and `softmin T` the
exponentially weighted average with weights `exp (-s / T)`, which
interpolates between the minimum (`T → 0⁺`) and the mean (`T → ∞`). -/
noncomputable def aggregate : AggMethod → List ℝ → ℝ
  | .amin, [] => 0
  | .amin, a :: t => t.foldl min a
  | .amean, l => l.sum / l.length
  | .softmin T, l =>
      (l.map fun s => s * Real.exp (-s / T)).sum /
        (l.map fun s => Real.exp (-s / T)).sum

theorem foldl_min_le (t : List ℝ) :
    ∀ a : ℝ, ∀ x ∈ a :: t, t.foldl min a ≤ x := by
  induction t with
  | nil =>
    intro a x hx
    obtain rfl : x = a := by simpa using hx
    exact le_refl _
  | cons b t' ih =>
    intro a x hx
    rw [List.foldl_cons]
    rcases List.mem_cons.mp hx with heq | hx'
    · rw [heq]
      exact (ih (min a b) (min a b) (List.mem_cons_self _ _)).trans
        (min_le_left a b)
    · rcases List.mem_cons.mp hx' with heq | hx''
      · rw [heq]
        exact (ih (min a b) (min a b) (List.mem_cons_self _ _)).trans
          (min_le_right a b)
      · exact ih (min a b) x (List.mem_cons_of_mem _ hx'')

theorem foldl_min_mem (t : List ℝ) : ∀ a : ℝ, t.foldl min a ∈ a :: t := by
  induction t with
  | nil => intro a; simp
  | cons b t' ih =>
    intro a
    rw [List.foldl_cons]
    have h := ih (min a b)
    rcases List.mem_cons.mp h with heq | hmem
    · rcases min_choice a b with hab | hab
      · rw [heq.trans hab]
        exact List.mem_cons_self _ _
      · rw [heq.trans hab]
        exact List.mem_cons_of_mem _ (List.mem_cons_self _ _)
    · exact List.mem_cons_of_mem _ (List.mem_cons_of_mem _ hmem)

theorem tendsto_list_sum_map {ι : Type} (F : Filter ℝ) (f : ι → ℝ → ℝ)
    (g : ι → ℝ) :
    ∀ l : List ι, (∀ i ∈ l, Filter.Tendsto (f i) F (nhds (g i))) →
      Filter.Tendsto (fun T => (l.map fun i => f i T).sum) F
        (nhds (l.map g).sum) := by
  intro l
  induction l with
  | nil =>
    intro _
    simpa using tendsto_const_nhds
  | cons i rest ih =>
    intro h
    have h1 := h i (List.mem_cons_self i rest)
    have h2 := ih fun j hj => h j (List.mem_cons_of_mem _ hj)
    simpa using h1.add h2

theorem sum_map_ite_count (m v : ℝ) :
    ∀ l : List ℝ, (l.map fun s => if s = m then v else 0).sum =
      (l.countP fun s => decide (s = m)) * v := by
  intro l
  induction l with
  | nil => simp
  | cons a t ih =>
    rw [List.map_cons, List.sum_cons, ih, List.countP_cons]
    by_cases ha : a = m <;> simp [ha] <;> ring

theorem softmin_eq_shifted (l : List ℝ) (m T : ℝ) :
    aggregate (.softmin T) l =
      (l.map fun s => s * Real.exp ((m - s) / T)).sum /
        (l.map fun s => Real.exp ((m - s) / T)).sum := by
  have he : Real.exp (m / T) ≠ 0 := Real.exp_ne_zero _
  have hnum : (l.map fun s => s * Real.exp (-s / T)).sum * Real.exp (m / T) =
      (l.map fun s => s * Real.exp ((m - s) / T)).sum := by
    rw [← List.sum_map_mul_right]
    congr 1
    refine List.map_congr_left fun s _ => ?_
    rw [mul_assoc, ← Real.exp_add]
    congr 2
    ring
  have hden : (l.map fun s => Real.exp (-s / T)).sum * Real.exp (m / T) =
      (l.map fun s => Real.exp ((m - s) / T)).sum := by
    rw [← List.sum_map_mul_right]
    congr 1
    refine List.map_congr_left fun s _ => ?_
    rw [← Real.exp_add]
    congr 1
    ring
  rw [aggregate, ← hnum, ← hden, mul_div_mul_right _ _ he]

theorem softmin_tendsto_min (l : List ℝ) (hl : l ≠ []) :
    Filter.Tendsto (fun T => aggregate (.softmin T) l)
      (nhdsWithin 0 (Set.Ioi 0)) (nhds (aggregate .amin l)) := by
  obtain ⟨a, t, rfl⟩ : ∃ a t, l = a :: t := by
    cases l with
    | nil => exact absurd rfl hl
    | cons a t => exact ⟨a, t, rfl⟩
  set m := t.foldl min a with hm
  have hmem : m ∈ a :: t := foldl_min_mem t a
  have hle : ∀ x ∈ a :: t, m ≤ x := foldl_min_le t a
  have hagg : aggregate .amin (a :: t) = m := rfl
  have hshift : ∀ T, aggregate (.softmin T) (a :: t) =
      ((a :: t).map fun s => s * Real.exp ((m - s) / T)).sum /
        ((a :: t).map fun s => Real.exp ((m - s) / T)).sum :=
    fun T => softmin_eq_shifted (a :: t) m T
  have hterm : ∀ s ∈ a :: t,
      Filter.Tendsto (fun T => Real.exp ((m - s) / T))
        (nhdsWithin 0 (Set.Ioi 0))
        (nhds (if s = m then 1 else 0)) := by
    intro s hs
    by_cases hsm : s = m
    · subst hsm
      have hconst : (fun T : ℝ => Real.exp ((m - m) / T)) = fun _ => 1 := by
        funext T
        rw [sub_self, zero_div, Real.exp_zero]
      rw [hconst, if_pos rfl]
      exact tendsto_const_nhds
    · have hms : m - s < 0 :=
        sub_neg.mpr (lt_of_le_of_ne (hle s hs) (Ne.symm hsm))
      have hinv : Filter.Tendsto (fun T : ℝ => T⁻¹)
          (nhdsWithin 0 (Set.Ioi 0)) Filter.atTop := tendsto_inv_zero_atTop
      have hbot : Filter.Tendsto (fun T : ℝ => (m - s) / T)
          (nhdsWithin 0 (Set.Ioi 0)) Filter.atBot := by
        have := Filter.Tendsto.neg_mul_atTop hms
          (tendsto_const_nhds : Filter.Tendsto (fun _ : ℝ => m - s) _ _) hinv
        simpa [div_eq_mul_inv] using this
      have hexp : Filter.Tendsto (fun T : ℝ => Real.exp ((m - s) / T))
          (nhdsWithin 0 (Set.Ioi 0)) (nhds 0) :=
        Real.tendsto_exp_atBot.comp hbot
      rw [if_neg hsm]
      exact hexp
  have hnum : Filter.Tendsto
      (fun T => ((a :: t).map fun s => s * Real.exp ((m - s) / T)).sum)
      (nhdsWithin 0 (Set.Ioi 0))
      (nhds (((a :: t).map fun s => if s = m then s else 0).sum)) :=
    tendsto_list_sum_map _ _ _ (a :: t) fun s hs => by
      by_cases hsm : s = m
      · have h1 := hterm s hs
        have h2 := h1.const_mul s
        simpa [hsm] using h2
      · have h1 := hterm s hs
        have h2 := h1.const_mul s
        simpa [hsm] using h2
  have hden : Filter.Tendsto
      (fun T => ((a :: t).map fun s => Real.exp ((m - s) / T)).sum)
      (nhdsWithin 0 (Set.Ioi 0))
      (nhds (((a :: t).map fun s => if s = m then (1 : ℝ) else 0).sum)) :=
    tendsto_list_sum_map _ _ _ (a :: t) hterm
  have hc : 0 < (a :: t).countP fun s => decide (s = m) :=
    List.countP_pos.mpr ⟨m, hmem, by simp⟩
  have hcne : (((a :: t).countP fun s => decide (s = m) : ℕ) : ℝ) ≠ 0 :=
    Nat.cast_ne_zero.mpr (Nat.pos_iff_ne_zero.mp hc)
  have hnumval : (((a :: t).map fun s => if s = m then s else 0).sum) =
      ((a :: t).countP fun s => decide (s = m) : ℕ) * m := by
    have : ((a :: t).map fun s => if s = m then s else 0) =
        ((a :: t).map fun s => if s = m then m else 0) := by
      refine List.map_congr_left fun s _ => ?_
      by_cases hsm : s = m <;> simp [hsm]
    rw [this, sum_map_ite_count]
  have hdenval : (((a :: t).map fun s => if s = m then (1 : ℝ) else 0).sum) =
      ((a :: t).countP fun s => decide (s = m) : ℕ) := by
    rw [sum_map_ite_count, mul_one]
  have hdiv := hnum.div hden (by rw [hdenval]; exact hcne)
  have hval : (((a :: t).map fun s => if s = m then s else 0).sum) /
      (((a :: t).map fun s => if s = m then (1 : ℝ) else 0).sum) = m := by
    rw [hnumval, hdenval, mul_comm, mul_div_cancel_right₀ _ hcne]
  rw [hagg]
  have heq : (fun T => aggregate (.softmin T) (a :: t)) = fun T =>
      ((a :: t).map fun s => s * Real.exp ((m - s) / T)).sum /
        ((a :: t).map fun s => Real.exp ((m - s) / T)).sum := by
    funext T
    exact hshift T
  rw [heq]
  rw [hval] at hdiv
  exact hdiv

theorem softmin_tendsto_mean (l : List ℝ) (hl : l ≠ []) :
    Filter.Tendsto (fun T => aggregate (.softmin T) l) Filter.atTop
      (nhds (aggregate .amean l)) := by
  have hterm : ∀ s : ℝ, Filter.Tendsto (fun T : ℝ => Real.exp (-s / T))
      Filter.atTop (nhds 1) := by
    intro s
    have h0 : Filter.Tendsto (fun T : ℝ => -s / T) Filter.atTop (nhds 0) :=
      Filter.Tendsto.div_atTop tendsto_const_nhds Filter.tendsto_id
    have h1 := (Real.continuous_exp.tendsto 0).comp h0
    simpa [Real.exp_zero] using h1
  have hnum : Filter.Tendsto
      (fun T => (l.map fun s => s * Real.exp (-s / T)).sum) Filter.atTop
      (nhds ((l.map fun s => s).sum)) :=
    tendsto_list_sum_map _ _ _ l fun s _ => by
      simpa using (hterm s).const_mul s
  have hden : Filter.Tendsto
      (fun T => (l.map fun s => Real.exp (-s / T)).sum) Filter.atTop
      (nhds ((l.map fun _ => (1 : ℝ)).sum)) :=
    tendsto_list_sum_map _ _ _ l fun s _ => hterm s
  have hlen : ((l.length : ℕ) : ℝ) ≠ 0 :=
    Nat.cast_ne_zero.mpr (by
      intro h0
      exact hl (List.length_eq_zero.mp h0))
  have hdenval : (l.map fun _ => (1 : ℝ)).sum = (l.length : ℝ) := by
    rw [List.map_const', List.sum_replicate]
    simp
  have hnumval : (l.map fun s => s).sum = l.sum := by
    rw [List.map_id']
  have hdiv := hnum.div hden (by rw [hdenval]; exact hlen)
  have heq : (fun T => aggregate (.softmin T) l) = fun T =>
      (l.map fun s => s * Real.exp (-s / T)).sum /
        (l.map fun s => Real.exp (-s / T)).sum := by
    funext T
    rw [aggregate]
  have hval : (l.map fun s => s).sum / (l.map fun _ => (1 : ℝ)).sum =
      aggregate .amean l := by
    rw [hnumval, hdenval, aggregate]
  rw [heq]
  rw [hval] at hdiv
  exact hdiv

/-! ## Claim C8 -/

/-- C8: minimum aggregation returns the least token score and mean
aggregation the arithmetic mean (on `[0.9, 0.1]` they give `0.1` and `0.5`
respectively), and the temperature-weighted soft-minimum tends to the
minimum as the temperature tends to `0⁺` and to the mean as it tends to
`∞`. -/
theorem C8_sequence_aggregation :
    (aggregate .amin [(0.9 : ℝ), 0.1] = 0.1 ∧
      aggregate .amean [(0.9 : ℝ), 0.1] = 0.5) ∧
    (∀ l : List ℝ, l ≠ [] →
      aggregate .amin l ∈ l ∧ (∀ x ∈ l, aggregate .amin l ≤ x) ∧
      aggregate .amean l * l.length = l.sum) ∧
    (∀ l : List ℝ, l ≠ [] →
      Filter.Tendsto (fun T => aggregate (.softmin T) l)
        (nhdsWithin 0 (Set.Ioi 0)) (nhds (aggregate .amin l)) ∧
      Filter.Tendsto (fun T => aggregate (.softmin T) l) Filter.atTop
        (nhds (aggregate .amean l))) := by
  refine ⟨⟨?_, ?_⟩, ?_, fun l hl =>
    ⟨softmin_tendsto_min l hl, softmin_tendsto_mean l hl⟩⟩
  · show [(0.1 : ℝ)].foldl min 0.9 = 0.1
    rw [List.foldl_cons, List.foldl_nil]
    norm_num [min_def]
  · show ([(0.9 : ℝ), 0.1].sum) / ([(0.9 : ℝ), 0.1].length) = 0.5
    norm_num
  · intro l hl
    obtain ⟨a, t, rfl⟩ : ∃ a t, l = a :: t := by
      cases l with
      | nil => exact absurd rfl hl
      | cons a t => exact ⟨a, t, rfl⟩
    refine ⟨foldl_min_mem t a, foldl_min_le t a, ?_⟩
    have hlen : (((a :: t).length : ℕ) : ℝ) ≠ 0 :=
      Nat.cast_ne_zero.mpr (by simp)
    show ((a :: t).sum / ((a :: t).length)) * ((a :: t).length) = (a :: t).sum
    exact div_mul_cancel₀ _ hlen

theorem C8_sequence_aggregation_witness :
    ([(0.9 : ℝ), 0.1] ≠ []) ∧
    aggregate .amin [(0.9 : ℝ), 0.1] ∈ [(0.9 : ℝ), 0.1] ∧
    Filter.Tendsto (fun T => aggregate (.softmin T) [(0.9 : ℝ), 0.1])
      (nhdsWithin 0 (Set.Ioi 0)) (nhds (aggregate .amin [(0.9 : ℝ), 0.1])) ∧
    Filter.Tendsto (fun T => aggregate (.softmin T) [(0.9 : ℝ), 0.1])
      Filter.atTop (nhds (aggregate .amean [(0.9 : ℝ), 0.1])) :=
  ⟨by simp,
    (C8_sequence_aggregation.2.1 [(0.9 : ℝ), 0.1] (by simp)).1,
    (C8_sequence_aggregation.2.2 [(0.9 : ℝ), 0.1] (by simp)).1,
    (C8_sequence_aggregation.2.2 [(0.9 : ℝ), 0.1] (by simp)).2⟩

end Cleanlab
